import Mathlib

/-!
Shallow embedding of `src/storage/mvcc/reader/cloud_reader.rs` (the
`CloudReader` MVCC read-side resolver) together with the contract of its
storage-engine collaborators, and proofs of the specification claims.

The storage engine (`kvengine::SnapAccess`), the typed-key codec
(`txn_types::Key`), the lock codec (`txn_types::Lock::parse`) and the
version-metadata codec (`rfstore::UserMeta`) live outside the repository;
they are modelled from the spec's black-box contract (spec §3, §6).
The resolver functions themselves are translated line by line from
`cloud_reader.rs`.
-/

namespace CloudReader

/-- Error type for the fallible operations (`crate::storage::mvcc::Result`).
Modelled from the spec: the taxonomy of §7 distinguishes key-encoding
errors from record-decoding errors. -/
inductive Err
  | keyEncoding
  | lockParse
deriving DecidableEq

/-- Strict lexicographic order on byte strings, the order Rust derives for
`Vec<u8>` (and hence for `txn_types::Key`) and the native key order of the
engine's families. -/
def listLt : List Nat → List Nat → Bool
  | [], [] => false
  | [], _ :: _ => true
  | _ :: _, [] => false
  | a :: as, b :: bs => if a < b then true else if b < a then false else listLt as bs

/-- A typed key (`txn_types::Key`): a byte string in encoded form. -/
structure Key where
  enc : List Nat
deriving DecidableEq

/-- Modelled from the spec: the typed-key encoding of raw bytes
(`Key::from_raw`).  The spec requires it to be deterministic and
order-preserving, and its decoding to be fallible (§7 key-encoding error);
we use a byte-escape encoding with these properties. -/
def encodeRaw : List Nat → List Nat
  | [] => [0]
  | b :: bs => 1 :: b :: encodeRaw bs

def Key.from_raw (raw : List Nat) : Key := ⟨encodeRaw raw⟩

/-- Modelled from the spec: decoding a typed key back to raw bytes; fails
on byte strings that are not canonical encodings. -/
def decodeRaw : List Nat → Except Err (List Nat)
  | [0] => .ok []
  | 1 :: b :: rest =>
    match decodeRaw rest with
    | .ok r => .ok (b :: r)
    | .error e => .error e
  | _ => .error .keyEncoding

/-- `Key::to_raw`, the fallible conversion of a typed key to raw bytes. -/
def Key.to_raw (k : Key) : Except Err (List Nat) := decodeRaw k.enc

/-- `rfstore::UserMeta`: the fixed-size version metadata `(start_ts, commit_ts)`
attached to stored items (spec §6: "decodes to exactly two fixed-width
unsigned integers"). -/
structure UserMeta where
  start_ts : Nat
  commit_ts : Nat
deriving DecidableEq

/-- An engine item (`kvengine::Item`): value bytes plus an optional
version-metadata blob (length indicator `0` ⇒ absent, spec §6). -/
structure Item where
  value : List Nat
  userMeta : Option UserMeta
deriving DecidableEq

def Item.value_len (i : Item) : Nat := i.value.length

def Item.get_value (i : Item) : List Nat := i.value

/-- `item.user_meta_len()`: length indicator of the metadata blob;
the blob is a fixed-size 16-byte encoding when present, `0` when absent. -/
def Item.user_meta_len (i : Item) : Nat :=
  match i.userMeta with
  | some _ => 16
  | none => 0

/-- `UserMeta::from_slice`. Modelled from the spec: the metadata blob decodes
to exactly the two timestamps.  Calling it on an absent blob is outside the
engine contract (spec §3: every write-family item carries metadata); the
model returns zeros there, and the theorems that touch this path assume the
contract. -/
def UserMeta.from_slice (m : Option UserMeta) : UserMeta := m.getD ⟨0, 0⟩

/-- The item an engine point lookup returns when nothing is stored:
empty value bytes and no metadata. -/
def emptyItem : Item := ⟨[], none⟩

/-- One stored entry of a column family: raw key, engine commit version and
item.  A family is its ordered entry list (key ascending; for the write
family, versions of one key newest first). -/
structure Entry where
  key : List Nat
  version : Nat
  item : Item
deriving DecidableEq

/-- Modelled from the spec (§6): `snapshot.get(family, raw_key, ts_ceiling)`
returns the item for `raw_key` whose version is the greatest not exceeding
`ts_ceiling`, where ceiling `0` means unconstrained; with per-key entries
stored newest first this is the first admissible entry. -/
def cfGet : List Entry → List Nat → Nat → Item
  | [], _, _ => emptyItem
  | e :: rest, k, ts =>
    if e.key = k ∧ (ts = 0 ∨ e.version ≤ ts) then e.item else cfGet rest k ts

/-- Modelled from the spec (§6): `iterator.seek(raw_key)` positions a forward
iterator at the first entry whose key is not below `raw_key`; the suffix of
the family list from that position is what the iteration visits. -/
def cfSeek (cf : List Entry) (raw : List Nat) : List Entry :=
  cf.dropWhile (fun e => listLt e.key raw)

/-- `kvengine::SnapAccess`: one immutable snapshot exposing the three
column families consumed by the resolver (spec §3). -/
structure SnapAccess where
  writeCf : List Entry
  lockCf : List Entry
  extraCf : List Entry
deriving DecidableEq

/-- `txn_types::WriteType`. -/
inductive WriteType
  | Put
  | Delete
  | Lock
  | Rollback
deriving DecidableEq

/-- `txn_types::Write`: a write record. -/
structure Write where
  write_type : WriteType
  start_ts : Nat
  short_value : Option (List Nat)
deriving DecidableEq

/-- `Write::new`. -/
def Write.new (t : WriteType) (ts : Nat) (v : Option (List Nat)) : Write :=
  ⟨t, ts, v⟩

/-- `crate::storage::mvcc::TxnCommitRecord`, restricted to the variants the
resolver produces: a found record, or nothing (with the optional
overlapping-write annotation of spec §3, never populated here). -/
inductive TxnCommitRecord
  | SingleRecord (commit_ts : Nat) (write : Write)
  | None (overlapped_write : Option Write)
deriving DecidableEq

/-- `txn_types::OldValue`, restricted to the variants the resolver produces. -/
inductive OldValue
  | None
  | value (v : List Nat)
deriving DecidableEq

/-- `txn_types::Lock`. Modelled from the spec: the decoded structured lock
record is opaque to the resolver beyond parsing and a caller predicate
(spec §3); we keep a kind byte and the remaining bytes. -/
structure Lock where
  kind : Nat
  body : List Nat
deriving DecidableEq

/-- `Lock::parse`. Modelled from the spec: non-empty lock bytes deserialize
to a structured record, malformed bytes are a hard decode error (§4.2, §7);
the model accepts a kind byte below 4. -/
def Lock.parse (bs : List Nat) : Except Err Lock :=
  match bs with
  | k :: rest => if k < 4 then .ok ⟨k, rest⟩ else .error .lockParse
  | [] => .error .lockParse

/-- Big-endian bytes of a 64-bit timestamp. -/
def be8 (ts : Nat) : List Nat :=
  [ts / 2 ^ 56 % 256, ts / 2 ^ 48 % 256, ts / 2 ^ 40 % 256, ts / 2 ^ 32 % 256,
   ts / 2 ^ 24 % 256, ts / 2 ^ 16 % 256, ts / 2 ^ 8 % 256, ts % 256]

/-- `rfstore::mvcc::encode_extra_txn_status_key`. Modelled from the spec
(§6): a deterministic, collision-free encoding of `(raw_key, start_ts)`;
the fixed-width timestamp suffix makes it injective. -/
def encode_extra_txn_status_key (raw : List Nat) (start_ts : Nat) : List Nat :=
  raw ++ be8 start_ts

/-- `CloudReader::get_commit_by_item` (cloud_reader.rs:21-36): synthesize a
found commit record from a write-family item when its metadata `start_ts`
matches the queried one. -/
def get_commit_by_item (item : Item) (start_ts : Nat) : Option TxnCommitRecord :=
  let user_meta := UserMeta.from_slice item.userMeta
  if user_meta.start_ts = start_ts then
    let ws : WriteType × Option (List Nat) :=
      if item.value_len > 0 then (WriteType.Put, some item.get_value)
      else (WriteType.Delete, none)
    some (TxnCommitRecord.SingleRecord user_meta.commit_ts
      (Write.new ws.1 user_meta.start_ts ws.2))
  else
    none

/-- The `while data_iter.valid()` loop of `get_txn_commit_record`
(cloud_reader.rs:52-61): walk the seeked write-family suffix, stop when the
key changes, return the first matching commit record. -/
def writeScanLoop (entries : List Entry) (raw_key : List Nat) (start_ts : Nat) :
    Option TxnCommitRecord :=
  match entries with
  | [] => none
  | e :: rest =>
    if e.key ≠ raw_key then none
    else
      match get_commit_by_item e.item start_ts with
      | some record => some record
      | none => writeScanLoop rest raw_key start_ts

/-- `CloudReader::get_txn_commit_record` (cloud_reader.rs:38-81). -/
def get_txn_commit_record (snap : SnapAccess) (key : Key) (start_ts : Nat) :
    Except Err TxnCommitRecord :=
  match key.to_raw with
  | .error e => .error e
  | .ok raw_key =>
    let item := cfGet snap.writeCf raw_key 0
    match (if item.user_meta_len > 0 then get_commit_by_item item start_ts else none) with
    | some record => .ok record
    | none =>
      match writeScanLoop (cfSeek snap.writeCf raw_key) raw_key start_ts with
      | some record => .ok record
      | none =>
        let rollback_key := encode_extra_txn_status_key raw_key start_ts
        let item2 := cfGet snap.extraCf rollback_key 0
        if item2.value_len = 0 then
          .ok (TxnCommitRecord.None Option.none)
        else
          let user_meta := UserMeta.from_slice item2.userMeta
          let write :=
            if user_meta.commit_ts = 0 then Write.new WriteType.Rollback start_ts Option.none
            else Write.new WriteType.Lock start_ts Option.none
          .ok (TxnCommitRecord.SingleRecord user_meta.commit_ts write)

/-- Outcome of a call that can abort the process (a Rust `unwrap`/`assert`
failure) instead of returning. -/
inductive Outcome (α : Type)
  | abort
  | ok (a : α)
deriving DecidableEq

/-- `CloudReader::load_lock` (cloud_reader.rs:83-91).  Note the source calls
`key.to_raw().unwrap()`: a key-encoding failure aborts instead of being
returned. -/
def load_lock (snap : SnapAccess) (key : Key) : Outcome (Except Err (Option Lock)) :=
  match key.to_raw with
  | .error _ => .abort
  | .ok raw_key =>
    let item := cfGet snap.lockCf raw_key 0
    if item.value_len = 0 then .ok (.ok Option.none)
    else
      match Lock.parse item.get_value with
      | .error e => .ok (.error e)
      | .ok lock => .ok (.ok (some lock))

/-- `CloudReader::get` (cloud_reader.rs:93-105). -/
def get (snap : SnapAccess) (key : Key) (ts : Nat) (_gc_fence_limit : Option Nat) :
    Except Err (Option (List Nat)) :=
  match key.to_raw with
  | .error e => .error e
  | .ok raw_key =>
    let item := cfGet snap.writeCf raw_key ts
    if item.value_len > 0 then .ok (some item.get_value) else .ok Option.none

/-- `CloudReader::seek_write` (cloud_reader.rs:117-138). -/
def seek_write (snap : SnapAccess) (key : Key) (ts : Nat) :
    Except Err (Option (Nat × Write)) :=
  match key.to_raw with
  | .error e => .error e
  | .ok raw_key =>
    let item := cfGet snap.writeCf raw_key ts
    if item.user_meta_len > 0 then
      let user_meta := UserMeta.from_slice item.userMeta
      let ws : WriteType × Option (List Nat) :=
        if item.get_value.length = 0 then (WriteType.Delete, none)
        else (WriteType.Put, some item.get_value)
      .ok (some (user_meta.commit_ts, Write.new ws.1 user_meta.start_ts ws.2))
    else
      .ok Option.none

/-- `CloudReader::get_write` (cloud_reader.rs:107-115): `seek_write` with the
commit timestamp discarded. -/
def get_write (snap : SnapAccess) (key : Key) (ts : Nat) (_gc_fence_limit : Option Nat) :
    Except Err (Option Write) :=
  (seek_write snap key ts).map (fun opt => opt.map (fun p => p.2))

/-- `CloudReader::get_old_value` (cloud_reader.rs:140-151).  The `assert_eq!`
on the write type and the `short_value.unwrap()` abort on contract
violations. -/
def get_old_value (prev_write : Option Write) : Outcome (Except Err OldValue) :=
  match prev_write with
  | some write =>
    if write.write_type = WriteType.Delete then .ok (.ok OldValue.None)
    else if write.write_type ≠ WriteType.Put then .abort
    else
      match write.short_value with
      | some v => .ok (.ok (OldValue.value v))
      | none => .abort
  | none => .ok (.ok OldValue.None)

/-- The `while lock_iter.valid()` loop of `scan_locks`
(cloud_reader.rs:176-192), carrying the collected `locks` vector. -/
def scanLoop (entries : List Entry) (end_ : Option Key) (filter : Lock → Bool)
    (limit : Nat) (locks : List (Key × Lock)) : Except Err (List (Key × Lock) × Bool) :=
  match entries with
  | [] => .ok (locks, false)
  | e :: rest =>
    let key := Key.from_raw e.key
    if (match end_ with
        | some en => !(listLt key.enc en.enc)
        | none => false) then
      .ok (locks, false)
    else
      match Lock.parse e.item.get_value with
      | .error er => .error er
      | .ok lock =>
        if filter lock then
          let locks2 := locks ++ [(key, lock)]
          if 0 < limit ∧ locks2.length = limit then .ok (locks2, true)
          else scanLoop rest end_ filter limit locks2
        else
          scanLoop rest end_ filter limit locks

/-- `CloudReader::scan_locks` (cloud_reader.rs:158-194). -/
def scan_locks (snap : SnapAccess) (start : Option Key) (end_ : Option Key)
    (filter : Lock → Bool) (limit : Nat) : Except Err (List (Key × Lock) × Bool) :=
  match start with
  | some s =>
    match s.to_raw with
    | .error e => .error e
    | .ok raw_start => scanLoop (cfSeek snap.lockCf raw_start) end_ filter limit []
  | none => scanLoop snap.lockCf end_ filter limit []

/-- Spec-side notion (written from the claim's words, for comparison with the
code): a further lock matching `filter` exists strictly beyond `lastKey`
and within the upper bound. -/
def furtherMatchExists (snap : SnapAccess) (lastKey : Key) (end_ : Option Key)
    (filter : Lock → Bool) : Bool :=
  snap.lockCf.any (fun e =>
    listLt lastKey.enc (Key.from_raw e.key).enc &&
    (match end_ with
     | some en => listLt (Key.from_raw e.key).enc en.enc
     | none => true) &&
    (match Lock.parse e.item.get_value with
     | .ok l => filter l
     | .error _ => false))

/-- Number of entries of a list whose lock bytes parse and pass the filter. -/
def matchCount (entries : List Entry) (filter : Lock → Bool) : Nat :=
  (entries.filter (fun e =>
    match Lock.parse e.item.get_value with
    | .ok l => filter l
    | .error _ => false)).length

/-- The seeked entry list a lock scan iterates: the lock family from the
(decoded) start key, or the whole family when no start key is given. -/
def scanStart (snap : SnapAccess) (start : Option Key) : Except Err (List Entry) :=
  match start with
  | some s =>
    match s.to_raw with
    | .error e => .error e
    | .ok raw_start => .ok (cfSeek snap.lockCf raw_start)
  | none => .ok snap.lockCf

/-- A concrete snapshot: key `[1]` has two retained write versions
(`start_ts = 5, commit_ts = 10`, value `[7]`; and `start_ts = 3,
commit_ts = 8`, empty value), two locks are stored, and the extra family
records a rollback of `(key [2], start_ts 5)`. -/
def snapA : SnapAccess :=
  { writeCf := [⟨[1], 10, ⟨[7], some ⟨5, 10⟩⟩⟩, ⟨[1], 8, ⟨[], some ⟨3, 8⟩⟩⟩],
    lockCf := [⟨[1], 0, ⟨[0, 9], none⟩⟩, ⟨[2], 0, ⟨[1, 9], none⟩⟩],
    extraCf := [⟨encode_extra_txn_status_key [2] 5, 1, ⟨[1], some ⟨5, 0⟩⟩⟩] }

/-- A concrete snapshot whose lock family holds exactly one lock. -/
def snapB : SnapAccess :=
  { writeCf := [], lockCf := [⟨[1], 0, ⟨[0], none⟩⟩], extraCf := [] }

/-- A concrete snapshot whose lock family holds one well-formed lock and one
whose bytes do not parse. -/
def snapC : SnapAccess :=
  { writeCf := [], lockCf := [⟨[1], 0, ⟨[0, 9], none⟩⟩, ⟨[2], 0, ⟨[7], none⟩⟩], extraCf := [] }

theorem listLt_irrefl : ∀ a, listLt a a = false := by
  intro a
  induction a with
  | nil => rfl
  | cons x xs ih => simp [listLt, ih]

theorem listLt_cons_iff (x y : Nat) (xs ys : List Nat) :
    listLt (x :: xs) (y :: ys) = true ↔ x < y ∨ (x = y ∧ listLt xs ys = true) := by
  simp only [listLt]
  split_ifs with h1 h2
  · simp [h1]
  · constructor
    · intro h
      simp at h
    · intro h
      rcases h with h | ⟨h, _⟩ <;> omega
  · constructor
    · intro h
      right
      exact ⟨by omega, h⟩
    · intro h
      rcases h with h | ⟨_, h⟩
      · omega
      · exact h

theorem listLt_trans : ∀ a b c, listLt a b = true → listLt b c = true →
    listLt a c = true := by
  intro a
  induction a with
  | nil =>
    intro b c hab hbc
    cases b with
    | nil => simp [listLt] at hab
    | cons y ys =>
      cases c with
      | nil => simp [listLt] at hbc
      | cons z zs => simp [listLt]
  | cons x xs ih =>
    intro b c hab hbc
    cases b with
    | nil => simp [listLt] at hab
    | cons y ys =>
      cases c with
      | nil => simp [listLt] at hbc
      | cons z zs =>
        rw [listLt_cons_iff] at hab hbc ⊢
        rcases hab with h | ⟨he, h⟩ <;> rcases hbc with h2 | ⟨he2, h2⟩
        · left; omega
        · left; omega
        · left; omega
        · right
          exact ⟨by omega, ih ys zs h h2⟩

theorem listLt_asymm (a b : List Nat) (h : listLt a b = true) : listLt b a = false := by
  by_contra hc
  have hba : listLt b a = true := by
    cases hb : listLt b a with
    | false => exact absurd hb hc
    | true => rfl
  have := listLt_trans a b a h hba
  rw [listLt_irrefl] at this
  exact Bool.noConfusion this

theorem listLt_encodeRaw : ∀ x y, listLt (encodeRaw x) (encodeRaw y) = listLt x y := by
  intro x
  induction x with
  | nil =>
    intro y
    cases y with
    | nil => simp [encodeRaw, listLt]
    | cons b bs => simp [encodeRaw, listLt]
  | cons a as ih =>
    intro y
    cases y with
    | nil => simp [encodeRaw, listLt]
    | cons b bs =>
      simp only [encodeRaw, listLt, if_neg (lt_irrefl 1)]
      split_ifs with h1 h2
      · rfl
      · rfl
      · exact ih bs

theorem decodeRaw_encodeRaw : ∀ r, decodeRaw (encodeRaw r) = .ok r := by
  intro r
  induction r with
  | nil => rfl
  | cons b bs ih => simp [encodeRaw, decodeRaw, ih]

theorem decodeRaw_canonical : ∀ e r, decodeRaw e = .ok r → e = encodeRaw r := by
  intro e
  induction e using decodeRaw.induct with
  | case1 =>
    intro r h
    simp only [decodeRaw] at h
    cases h
    rfl
  | case2 b rest r hrec ih =>
    intro r2 h
    simp only [decodeRaw, hrec] at h
    cases h
    simp [encodeRaw, ih r hrec]
  | case3 b rest e hrec ih =>
    intro r2 h
    simp only [decodeRaw, hrec] at h
    exact Except.noConfusion h
  | case4 t h1 h2 =>
    intro r h
    have : decodeRaw t = .error .keyEncoding := by
      rw [decodeRaw.eq_def]
      split
      · exact absurd rfl h1
      · exact absurd rfl (h2 _ _)
      · rfl
    rw [this] at h
    exact Except.noConfusion h

theorem cfGet_cases : ∀ (cf : List Entry) (k : List Nat) (ts : Nat),
    cfGet cf k ts = emptyItem ∨ ∃ e ∈ cf, e.key = k ∧ cfGet cf k ts = e.item := by
  intro cf k ts
  induction cf with
  | nil => left; rfl
  | cons e rest ih =>
    by_cases h : e.key = k ∧ (ts = 0 ∨ e.version ≤ ts)
    · right
      exact ⟨e, List.mem_cons_self e rest, h.1, by simp [cfGet, h]⟩
    · rcases ih with h0 | ⟨e2, hm, hk, he⟩
      · left
        simpa [cfGet, h] using h0
      · right
        exact ⟨e2, List.mem_cons_of_mem e hm, hk, by simpa [cfGet, h] using he⟩

theorem get_commit_by_item_mismatch (item : Item) (start_ts : Nat)
    (h : (UserMeta.from_slice item.userMeta).start_ts ≠ start_ts) :
    get_commit_by_item item start_ts = none := by
  simp [get_commit_by_item, h]

theorem writeScanLoop_none : ∀ (entries : List Entry) (raw_key : List Nat) (start_ts : Nat),
    (∀ e ∈ entries, e.key = raw_key →
      (UserMeta.from_slice e.item.userMeta).start_ts ≠ start_ts) →
    writeScanLoop entries raw_key start_ts = none := by
  intro entries raw_key start_ts h
  induction entries with
  | nil => rfl
  | cons e rest ih =>
    by_cases hk : e.key = raw_key
    · have hne := h e (List.mem_cons_self e rest) hk
      simp only [writeScanLoop]
      rw [if_neg (by simp [hk])]
      rw [get_commit_by_item_mismatch e.item start_ts hne]
      exact ih (fun x hx => h x (List.mem_cons_of_mem e hx))
    · simp [writeScanLoop, hk]

theorem cfSeek_ge (cf : List Entry) (raw : List Nat)
    (hs : cf.Pairwise (fun a b => listLt a.key b.key = true)) :
    ∀ e ∈ cfSeek cf raw, listLt e.key raw = false := by
  induction cf with
  | nil => intro e he; simp [cfSeek] at he
  | cons x rest ih =>
    intro e he
    by_cases hx : listLt x.key raw = true
    · have : cfSeek (x :: rest) raw = cfSeek rest raw := by
        simp [cfSeek, List.dropWhile, hx]
      rw [this] at he
      exact ih (List.Pairwise.of_cons hs) e he
    · have hxf : listLt x.key raw = false := by
        cases h : listLt x.key raw with
        | false => rfl
        | true => exact absurd h hx
      have : cfSeek (x :: rest) raw = x :: rest := by
        simp [cfSeek, List.dropWhile, hxf]
      rw [this] at he
      rcases List.mem_cons.mp he with h | h
      · subst h; exact hxf
      · cases he2 : listLt e.key raw with
        | false => rfl
        | true =>
          have hxe : listLt x.key e.key = true := (List.pairwise_cons.mp hs).1 e h
          have := listLt_trans x.key e.key raw hxe he2
          rw [hxf] at this
          exact Bool.noConfusion this

theorem cfSeek_sublist (cf : List Entry) (raw : List Nat) :
    (cfSeek cf raw).Sublist cf :=
  (List.dropWhile_suffix _).sublist

theorem get_ok_eq (snap : SnapAccess) (key : Key) (ts : Nat) (g : Option Nat)
    (raw : List Nat) (hr : key.to_raw = .ok raw) :
    get snap key ts g =
      if (cfGet snap.writeCf raw ts).value_len > 0
      then .ok (some (cfGet snap.writeCf raw ts).get_value)
      else .ok Option.none := by
  unfold get
  rw [hr]

theorem get_error_eq (snap : SnapAccess) (key : Key) (ts : Nat) (g : Option Nat)
    (e : Err) (hr : key.to_raw = .error e) : get snap key ts g = .error e := by
  unfold get
  rw [hr]

theorem seek_write_ok_eq (snap : SnapAccess) (key : Key) (ts : Nat)
    (raw : List Nat) (hr : key.to_raw = .ok raw) :
    seek_write snap key ts =
      (if (cfGet snap.writeCf raw ts).user_meta_len > 0 then
        .ok (some ((UserMeta.from_slice (cfGet snap.writeCf raw ts).userMeta).commit_ts,
          Write.new
            (if (cfGet snap.writeCf raw ts).get_value.length = 0 then (WriteType.Delete, (none : Option (List Nat)))
             else (WriteType.Put, some (cfGet snap.writeCf raw ts).get_value)).1
            (UserMeta.from_slice (cfGet snap.writeCf raw ts).userMeta).start_ts
            (if (cfGet snap.writeCf raw ts).get_value.length = 0 then (WriteType.Delete, (none : Option (List Nat)))
             else (WriteType.Put, some (cfGet snap.writeCf raw ts).get_value)).2))
      else .ok Option.none) := by
  unfold seek_write
  rw [hr]

theorem seek_write_error_eq (snap : SnapAccess) (key : Key) (ts : Nat)
    (e : Err) (hr : key.to_raw = .error e) : seek_write snap key ts = .error e := by
  unfold seek_write
  rw [hr]

theorem load_lock_abort_eq (snap : SnapAccess) (key : Key)
    (e : Err) (hr : key.to_raw = .error e) : load_lock snap key = .abort := by
  unfold load_lock
  rw [hr]

theorem get_txn_commit_record_error_eq (snap : SnapAccess) (key : Key)
    (start_ts : Nat) (e : Err) (hr : key.to_raw = .error e) :
    get_txn_commit_record snap key start_ts = .error e := by
  unfold get_txn_commit_record
  rw [hr]

theorem scan_locks_error_eq (snap : SnapAccess) (start : Key) (end_ : Option Key)
    (filter : Lock → Bool) (limit : Nat) (e : Err) (hr : start.to_raw = .error e) :
    scan_locks snap (some start) end_ filter limit = .error e := by
  unfold scan_locks
  simp only [hr]

theorem gtcr_unfold (snap : SnapAccess) (key : Key) (start_ts : Nat)
    (raw : List Nat) (hr : key.to_raw = .ok raw) :
    get_txn_commit_record snap key start_ts =
      match (if (cfGet snap.writeCf raw 0).user_meta_len > 0
             then get_commit_by_item (cfGet snap.writeCf raw 0) start_ts
             else none) with
      | some record => .ok record
      | none =>
        match writeScanLoop (cfSeek snap.writeCf raw) raw start_ts with
        | some record => .ok record
        | none =>
          if (cfGet snap.extraCf (encode_extra_txn_status_key raw start_ts) 0).value_len = 0 then
            .ok (TxnCommitRecord.None Option.none)
          else
            .ok (TxnCommitRecord.SingleRecord
              (UserMeta.from_slice
                (cfGet snap.extraCf (encode_extra_txn_status_key raw start_ts) 0).userMeta).commit_ts
              (if (UserMeta.from_slice
                    (cfGet snap.extraCf (encode_extra_txn_status_key raw start_ts) 0).userMeta).commit_ts = 0
               then Write.new WriteType.Rollback start_ts Option.none
               else Write.new WriteType.Lock start_ts Option.none)) := by
  unfold get_txn_commit_record
  rw [hr]

theorem get_commit_by_item_match (item : Item) (start_ts : Nat)
    (h : (UserMeta.from_slice item.userMeta).start_ts = start_ts) :
    get_commit_by_item item start_ts =
      some (TxnCommitRecord.SingleRecord (UserMeta.from_slice item.userMeta).commit_ts
        (Write.new (if item.value_len > 0 then WriteType.Put else WriteType.Delete)
          start_ts
          (if item.value_len > 0 then some item.get_value else Option.none))) := by
  unfold get_commit_by_item
  rw [if_pos h, h]
  by_cases hv : item.value_len > 0
  · simp [hv]
  · simp [hv]

theorem writeScanLoop_first (P : List Entry) (e : Entry) (rest : List Entry)
    (raw : List Nat) (start_ts : Nat)
    (hP : ∀ p ∈ P, p.key = raw ∧ (UserMeta.from_slice p.item.userMeta).start_ts ≠ start_ts)
    (hek : e.key = raw)
    (hets : (UserMeta.from_slice e.item.userMeta).start_ts = start_ts) :
    writeScanLoop (P ++ e :: rest) raw start_ts =
      some (TxnCommitRecord.SingleRecord (UserMeta.from_slice e.item.userMeta).commit_ts
        (Write.new (if e.item.value_len > 0 then WriteType.Put else WriteType.Delete)
          start_ts
          (if e.item.value_len > 0 then some e.item.get_value else Option.none))) := by
  induction P with
  | nil =>
    simp only [List.nil_append, writeScanLoop]
    rw [if_neg (by simp [hek])]
    rw [get_commit_by_item_match e.item start_ts hets]
  | cons p P2 ih =>
    rcases hP p (List.mem_cons_self p P2) with ⟨hpk, hpne⟩
    simp only [List.cons_append, writeScanLoop]
    rw [if_neg (by simp [hpk])]
    rw [get_commit_by_item_mismatch p.item start_ts hpne]
    exact ih (fun x hx => hP x (List.mem_cons_of_mem p hx))

theorem fastPath_none (snap : SnapAccess) (raw : List Nat) (start_ts : Nat)
    (hmiss : ∀ um, (cfGet snap.writeCf raw 0).userMeta = some um → um.start_ts ≠ start_ts) :
    (if (cfGet snap.writeCf raw 0).user_meta_len > 0
     then get_commit_by_item (cfGet snap.writeCf raw 0) start_ts
     else none) = none := by
  by_cases hml : (cfGet snap.writeCf raw 0).user_meta_len > 0
  · rw [if_pos hml]
    apply get_commit_by_item_mismatch
    cases hum : (cfGet snap.writeCf raw 0).userMeta with
    | none =>
      rw [Item.user_meta_len, hum] at hml
      simp at hml
    | some um =>
      simpa [UserMeta.from_slice, hum] using hmiss um hum
  · rw [if_neg hml]

/-- C1: the commit-record resolver first point-looks-up the write family with
no timestamp ceiling; on a metadata `start_ts` match it returns Found with a
record synthesized from the item (`Put` iff the value bytes are non-empty,
start from the metadata `start_ts`, commit from the metadata `commit_ts`);
otherwise it scans forward over the retained write-family versions with the
same raw key, stopping when the key changes, and returns Found on the first
version whose metadata `start_ts` matches. -/
theorem get_txn_commit_record_write_path (snap : SnapAccess) (key : Key)
    (start_ts : Nat) (raw : List Nat) (hr : key.to_raw = .ok raw) :
    (∀ um, (cfGet snap.writeCf raw 0).userMeta = some um → um.start_ts = start_ts →
      get_txn_commit_record snap key start_ts =
        .ok (TxnCommitRecord.SingleRecord um.commit_ts
          (Write.new
            (if (cfGet snap.writeCf raw 0).value_len > 0 then WriteType.Put
             else WriteType.Delete)
            um.start_ts
            (if (cfGet snap.writeCf raw 0).value_len > 0
             then some (cfGet snap.writeCf raw 0).get_value
             else Option.none)))) ∧
    ((∀ um, (cfGet snap.writeCf raw 0).userMeta = some um → um.start_ts ≠ start_ts) →
      ∀ P e rest, cfSeek snap.writeCf raw = P ++ e :: rest →
        (∀ p ∈ P, p.key = raw ∧ (UserMeta.from_slice p.item.userMeta).start_ts ≠ start_ts) →
        e.key = raw → (UserMeta.from_slice e.item.userMeta).start_ts = start_ts →
        get_txn_commit_record snap key start_ts =
          .ok (TxnCommitRecord.SingleRecord
            (UserMeta.from_slice e.item.userMeta).commit_ts
            (Write.new
              (if e.item.value_len > 0 then WriteType.Put else WriteType.Delete)
              start_ts
              (if e.item.value_len > 0 then some e.item.get_value else Option.none)))) := by
  constructor
  · intro um hum hts
    have hml : (cfGet snap.writeCf raw 0).user_meta_len > 0 := by
      rw [Item.user_meta_len, hum]
      norm_num
    rw [gtcr_unfold snap key start_ts raw hr, if_pos hml,
      get_commit_by_item_match (cfGet snap.writeCf raw 0) start_ts
        (by simp [UserMeta.from_slice, hum, hts])]
    simp [UserMeta.from_slice, hum, hts]
  · intro hmiss P e rest hsplit hP hek hets
    rw [gtcr_unfold snap key start_ts raw hr, fastPath_none snap raw start_ts hmiss,
      hsplit, writeScanLoop_first P e rest raw start_ts hP hek hets]

/-- C2: when no write-family version for the raw key has a matching metadata
`start_ts`, the resolver looks up the extra family at the deterministic
encoding of `(key, start_ts)`: absent item ⇒ NotFound with no overlapping
write; present with decoded `commit_ts = 0` ⇒ Found with a `Rollback` record
at `start_ts` and commit timestamp 0; present with `commit_ts ≠ 0` ⇒ Found
with a `Lock` record at `start_ts` and the decoded `commit_ts`. -/
theorem get_txn_commit_record_extra_path (snap : SnapAccess) (key : Key)
    (start_ts : Nat) (raw : List Nat) (hr : key.to_raw = .ok raw)
    (hnomatch : ∀ e ∈ snap.writeCf, e.key = raw →
      (UserMeta.from_slice e.item.userMeta).start_ts ≠ start_ts) :
    ((cfGet snap.extraCf (encode_extra_txn_status_key raw start_ts) 0).value_len = 0 →
      get_txn_commit_record snap key start_ts = .ok (TxnCommitRecord.None Option.none)) ∧
    (∀ um, (cfGet snap.extraCf (encode_extra_txn_status_key raw start_ts) 0).value_len > 0 →
      (cfGet snap.extraCf (encode_extra_txn_status_key raw start_ts) 0).userMeta = some um →
      (um.commit_ts = 0 →
        get_txn_commit_record snap key start_ts =
          .ok (TxnCommitRecord.SingleRecord 0
            (Write.new WriteType.Rollback start_ts Option.none))) ∧
      (um.commit_ts ≠ 0 →
        get_txn_commit_record snap key start_ts =
          .ok (TxnCommitRecord.SingleRecord um.commit_ts
            (Write.new WriteType.Lock start_ts Option.none)))) := by
  have hmiss : ∀ um, (cfGet snap.writeCf raw 0).userMeta = some um →
      um.start_ts ≠ start_ts := by
    intro um hum
    rcases cfGet_cases snap.writeCf raw 0 with h0 | ⟨e, hm, hk, he⟩
    · rw [h0] at hum
      exact Option.noConfusion hum
    · have := hnomatch e hm hk
      rw [he] at hum
      simpa [UserMeta.from_slice, hum] using this
  have hscan : writeScanLoop (cfSeek snap.writeCf raw) raw start_ts = none := by
    apply writeScanLoop_none
    intro e he hk
    exact hnomatch e ((cfSeek_sublist snap.writeCf raw).mem he) hk
  have hbase := gtcr_unfold snap key start_ts raw hr
  rw [fastPath_none snap raw start_ts hmiss, hscan] at hbase
  constructor
  · intro habsent
    rw [hbase, if_pos habsent]
  · intro um hpresent hum
    have hne : ¬ (cfGet snap.extraCf (encode_extra_txn_status_key raw start_ts) 0).value_len = 0 := by
      omega
    constructor
    · intro hz
      rw [hbase, if_neg hne]
      simp [UserMeta.from_slice, hum, hz]
    · intro hnz
      rw [hbase, if_neg hne]
      simp [UserMeta.from_slice, hum, hnz]

/-- C5: the old-value deriver returns `None` on absent input, `None` on a
`Delete` record, and `Some v` on a `Put` record carrying inline value `v`. -/
theorem get_old_value_spec :
    get_old_value Option.none = .ok (.ok OldValue.None) ∧
    (∀ sts sv, get_old_value (some (Write.new WriteType.Delete sts sv)) =
      .ok (.ok OldValue.None)) ∧
    (∀ sts v, get_old_value (some (Write.new WriteType.Put sts (some v))) =
      .ok (.ok (OldValue.value v))) := by
  refine ⟨rfl, ?_, ?_⟩ <;> intros <;> rfl

/-- C6: the old-value deriver aborts (assertion failure) on a `Lock` or
`Rollback` record and on a `Put` record with no inline value. -/
theorem get_old_value_asserts :
    (∀ sts sv, get_old_value (some (Write.new WriteType.Lock sts sv)) = .abort) ∧
    (∀ sts sv, get_old_value (some (Write.new WriteType.Rollback sts sv)) = .abort) ∧
    (∀ sts, get_old_value (some (Write.new WriteType.Put sts Option.none)) = .abort) := by
  refine ⟨?_, ?_, ?_⟩ <;> intros <;> rfl

/-- C9: `get` and `get_write` ignore their `_gc_fence_limit` argument: two
calls on the same snapshot differing only in that argument return
identical results. -/
theorem gc_fence_limit_ignored (snap : SnapAccess) (key : Key) (ts : Nat)
    (g1 g2 : Option Nat) :
    get snap key ts g1 = get snap key ts g2 ∧
    get_write snap key ts g1 = get_write snap key ts g2 :=
  ⟨rfl, rfl⟩

/-- C4: `get_write` agrees with `seek_write` (same record, commit timestamp
discarded, including the `None` and error cases), and `get` is the value
projection of the same underlying write-family lookup at `(key, ts)`. -/
theorem read_path_agreement (snap : SnapAccess) (key : Key) (ts : Nat)
    (g : Option Nat) :
    (∀ w, get_write snap key ts g = .ok (some w) ↔
      ∃ cts, seek_write snap key ts = .ok (some (cts, w))) ∧
    (get_write snap key ts g = .ok Option.none ↔
      seek_write snap key ts = .ok Option.none) ∧
    (∀ e, get_write snap key ts g = .error e ↔ seek_write snap key ts = .error e) ∧
    (∀ v, get snap key ts g = .ok (some v) ↔
      ∃ raw, key.to_raw = .ok raw ∧ (cfGet snap.writeCf raw ts).value = v ∧ v ≠ []) := by
  refine ⟨?_, ?_, ?_, ?_⟩
  · intro w
    unfold get_write
    cases hsw : seek_write snap key ts with
    | error e => simp [Except.map]
    | ok o =>
      cases o with
      | none => simp [Except.map]
      | some p => simp [Except.map, Prod.ext_iff, eq_comm]
  · unfold get_write
    cases hsw : seek_write snap key ts with
    | error e => simp [Except.map]
    | ok o => cases o with
      | none => simp [Except.map]
      | some p => simp [Except.map]
  · intro e
    unfold get_write
    cases hsw : seek_write snap key ts with
    | error e2 => simp [Except.map]
    | ok o => simp [Except.map]
  · intro v
    cases hr : key.to_raw with
    | error e =>
      rw [get_error_eq snap key ts g e hr]
      simp
    | ok raw =>
      rw [get_ok_eq snap key ts g raw hr]
      by_cases hv : (cfGet snap.writeCf raw ts).value_len > 0
      · have hne : (cfGet snap.writeCf raw ts).value ≠ [] := by
          intro h0
          rw [Item.value_len, h0] at hv
          simp at hv
        rw [if_pos hv]
        constructor
        · intro h
          cases h
          exact ⟨raw, rfl, rfl, hne⟩
        · rintro ⟨raw2, hraw2, hval, _⟩
          cases hraw2
          rw [Item.get_value, hval]
      · have he : (cfGet snap.writeCf raw ts).value = [] := by
          rw [Item.value_len] at hv
          simpa using hv
        rw [if_neg hv]
        constructor
        · intro h
          simp at h
        · rintro ⟨raw2, hraw2, hval, hne⟩
          cases hraw2
          rw [he] at hval
          exact absurd hval.symm hne

theorem scan_locks_eq_scanStart (snap : SnapAccess) (start end_ : Option Key)
    (filter : Lock → Bool) (limit : Nat) :
    scan_locks snap start end_ filter limit =
      match scanStart snap start with
      | .error e => .error e
      | .ok es => scanLoop es end_ filter limit [] := by
  cases start with
  | none => rfl
  | some s =>
    unfold scan_locks scanStart
    cases hst : s.to_raw with
    | error e => simp only [hst]
    | ok raw_start => simp only [hst]

theorem scanLoop_limit : ∀ (entries : List Entry) (end_ : Option Key)
    (filter : Lock → Bool) (n : Nat) (acc locks : List (Key × Lock)) (b : Bool),
    0 < n → acc.length < n →
    scanLoop entries end_ filter n acc = .ok (locks, b) →
    locks.length ≤ n ∧ (b = true ↔ locks.length = n) := by
  intro entries
  induction entries with
  | nil =>
    intro end_ filter n acc locks b hn hacc h
    simp only [scanLoop, Except.ok.injEq, Prod.mk.injEq] at h
    obtain ⟨h1, h2⟩ := h
    subst h1
    subst h2
    exact ⟨le_of_lt hacc, by simp; omega⟩
  | cons e rest ih =>
    intro end_ filter n acc locks b hn hacc h
    simp only [scanLoop] at h
    split at h
    · simp only [Except.ok.injEq, Prod.mk.injEq] at h
      obtain ⟨h1, h2⟩ := h
      subst h1
      subst h2
      exact ⟨le_of_lt hacc, by simp; omega⟩
    · cases hp : Lock.parse e.item.get_value with
      | error er =>
        rw [hp] at h
        exact Except.noConfusion h
      | ok lock =>
        rw [hp] at h
        simp only at h
        split at h
        · split at h
          · rename_i hcnt
            simp only [Except.ok.injEq, Prod.mk.injEq] at h
            obtain ⟨h1, h2⟩ := h
            subst h1
            subst h2
            refine ⟨le_of_eq hcnt.2, by simp [hcnt.2]⟩
          · rename_i hcnt
            have hlen : (acc ++ [(Key.from_raw e.key, lock)]).length < n := by
              rw [List.length_append]
              simp only [List.length_singleton]
              rcases Nat.lt_or_ge (acc.length + 1) n with hlt | hge
              · exact hlt
              · exfalso
                apply hcnt
                constructor
                · exact hn
                · rw [List.length_append]
                  simp only [List.length_singleton]
                  omega
            exact ih end_ filter n _ locks b hn hlen h
        · exact ih end_ filter n acc locks b hn hacc h

theorem scanLoop_zero : ∀ (entries : List Entry) (end_ : Option Key)
    (filter : Lock → Bool) (acc locks : List (Key × Lock)) (b : Bool),
    scanLoop entries end_ filter 0 acc = .ok (locks, b) → b = false := by
  intro entries
  induction entries with
  | nil =>
    intro end_ filter acc locks b h
    simp only [scanLoop, Except.ok.injEq, Prod.mk.injEq] at h
    exact h.2.symm
  | cons e rest ih =>
    intro end_ filter acc locks b h
    simp only [scanLoop] at h
    split at h
    · simp only [Except.ok.injEq, Prod.mk.injEq] at h
      exact h.2.symm
    · cases hp : Lock.parse e.item.get_value with
      | error er =>
        rw [hp] at h
        exact Except.noConfusion h
      | ok lock =>
        rw [hp] at h
        simp only at h
        split at h
        · split at h
          · rename_i hcnt
            exact absurd hcnt.1 (by omega)
          · exact ih end_ filter _ locks b h
        · exact ih end_ filter acc locks b h

/-- C3 counterexample: on a snapshot whose lock family holds exactly one
matching lock, a scan with `limit = 1` returns that lock with
`more_remaining = true` although no further matching lock exists at all. -/
theorem scan_locks_limit_cex :
    scan_locks snapB Option.none Option.none (fun _ => true) 1 =
      .ok ([(Key.from_raw [1], ⟨0, []⟩)], true) ∧
    furtherMatchExists snapB (Key.from_raw [1]) Option.none (fun _ => true) = false :=
  ⟨rfl, rfl⟩

/-- C3 amended: for `limit = n > 0` the scan returns at most `n` locks and
`more_remaining = true` iff exactly `n` were collected — the code does not
verify that a further matching lock exists; for `limit = 0` the scan is
unlimited and `more_remaining` is `false`. -/
theorem scan_locks_limit (snap : SnapAccess) (start end_ : Option Key)
    (filter : Lock → Bool) (n : Nat) (locks : List (Key × Lock)) (b : Bool) :
    (0 < n → scan_locks snap start end_ filter n = .ok (locks, b) →
      locks.length ≤ n ∧ (b = true ↔ locks.length = n)) ∧
    (scan_locks snap start end_ filter 0 = .ok (locks, b) → b = false) := by
  constructor
  · intro hn h
    rw [scan_locks_eq_scanStart] at h
    cases hs : scanStart snap start with
    | error e =>
      rw [hs] at h
      exact Except.noConfusion h
    | ok es =>
      rw [hs] at h
      exact scanLoop_limit es end_ filter n [] locks b hn (by simpa using hn) h
  · intro h
    rw [scan_locks_eq_scanStart] at h
    cases hs : scanStart snap start with
    | error e =>
      rw [hs] at h
      exact Except.noConfusion h
    | ok es =>
      rw [hs] at h
      exact scanLoop_zero es end_ filter [] locks b h

theorem scan_locks_limit_witness :
    scan_locks snapA Option.none Option.none (fun _ => true) 2 =
      .ok ([(Key.from_raw [1], ⟨0, [9]⟩), (Key.from_raw [2], ⟨1, [9]⟩)], true) ∧
    ([(Key.from_raw [1], (⟨0, [9]⟩ : Lock)), (Key.from_raw [2], ⟨1, [9]⟩)]).length ≤ 2 ∧
    (true = true ↔
      ([(Key.from_raw [1], (⟨0, [9]⟩ : Lock)), (Key.from_raw [2], ⟨1, [9]⟩)]).length = 2) := by
  have h := (scan_locks_limit snapA Option.none Option.none (fun _ => true) 2
    [(Key.from_raw [1], ⟨0, [9]⟩), (Key.from_raw [2], ⟨1, [9]⟩)] true).1
    (by norm_num) rfl
  exact ⟨rfl, h.1, h.2⟩

/-- C7 counterexample: `load_lock` does not surface a key-encoding failure
as a returned failure outcome — it aborts (the source unwraps the encoding
result, panicking on error). -/
theorem load_lock_panics_on_bad_key :
    Key.to_raw ⟨[]⟩ = .error Err.keyEncoding ∧ load_lock snapA ⟨[]⟩ = .abort :=
  ⟨rfl, rfl⟩

/-- C7 amended: every operation except `load_lock` surfaces a key-encoding
failure as its returned failure outcome to the immediate caller with no
retry; `load_lock` instead aborts (panics) on such a failure. -/
theorem key_encoding_error_propagation (snap : SnapAccess) (key : Key) (e : Err)
    (ts start_ts limit : Nat) (g : Option Nat) (end_ : Option Key)
    (filter : Lock → Bool) (hr : key.to_raw = .error e) :
    get_txn_commit_record snap key start_ts = .error e ∧
    get snap key ts g = .error e ∧
    get_write snap key ts g = .error e ∧
    seek_write snap key ts = .error e ∧
    scan_locks snap (some key) end_ filter limit = .error e ∧
    load_lock snap key = .abort := by
  refine ⟨get_txn_commit_record_error_eq snap key start_ts e hr,
    get_error_eq snap key ts g e hr, ?_, seek_write_error_eq snap key ts e hr,
    scan_locks_error_eq snap key end_ filter limit e hr,
    load_lock_abort_eq snap key e hr⟩
  unfold get_write
  rw [seek_write_error_eq snap key ts e hr]
  rfl

theorem key_encoding_error_propagation_witness :
    Key.to_raw ⟨[]⟩ = .error Err.keyEncoding ∧
    get_txn_commit_record snapA ⟨[]⟩ 1 = .error Err.keyEncoding ∧
    get snapA ⟨[]⟩ 1 Option.none = .error Err.keyEncoding ∧
    get_write snapA ⟨[]⟩ 1 Option.none = .error Err.keyEncoding ∧
    seek_write snapA ⟨[]⟩ 1 = .error Err.keyEncoding ∧
    scan_locks snapA (some ⟨[]⟩) Option.none (fun _ => true) 0 = .error Err.keyEncoding ∧
    load_lock snapA ⟨[]⟩ = .abort := by
  have h := key_encoding_error_propagation snapA ⟨[]⟩ Err.keyEncoding 1 1 0
    Option.none Option.none (fun _ => true) rfl
  exact ⟨rfl, h.1, h.2.1, h.2.2.1, h.2.2.2.1, h.2.2.2.2.1, h.2.2.2.2.2⟩

theorem get_txn_commit_record_write_path_witness :
    get_txn_commit_record snapA (Key.from_raw [1]) 3 =
      .ok (TxnCommitRecord.SingleRecord 8 (Write.new WriteType.Delete 3 Option.none)) := by
  have h := (get_txn_commit_record_write_path snapA (Key.from_raw [1]) 3 [1] rfl).2
    (by
      intro um hum
      have h5 : (some (UserMeta.mk 5 10) : Option UserMeta) = some um := hum
      cases h5
      decide)
    [⟨[1], 10, ⟨[7], some ⟨5, 10⟩⟩⟩] ⟨[1], 8, ⟨[], some ⟨3, 8⟩⟩⟩ []
    rfl (by decide) rfl rfl
  exact h

theorem get_txn_commit_record_extra_path_witness :
    get_txn_commit_record snapA (Key.from_raw [2]) 5 =
      .ok (TxnCommitRecord.SingleRecord 0 (Write.new WriteType.Rollback 5 Option.none)) := by
  have h := ((get_txn_commit_record_extra_path snapA (Key.from_raw [2]) 5 [2] rfl
    (by decide)).2 ⟨5, 0⟩ (by decide) rfl).1 rfl
  exact h

theorem scanLoop_props : ∀ (entries : List Entry) (end_ : Option Key)
    (filter : Lock → Bool) (n : Nat) (acc locks : List (Key × Lock)) (b : Bool),
    scanLoop entries end_ filter n acc = .ok (locks, b) →
    ∃ t, locks = acc ++ t ∧
      (t.map Prod.fst).Sublist (entries.map (fun e => Key.from_raw e.key)) ∧
      ∀ kl ∈ t, filter kl.2 = true ∧
        ∀ en, end_ = some en → listLt kl.1.enc en.enc = true := by
  intro entries
  induction entries with
  | nil =>
    intro end_ filter n acc locks b h
    simp only [scanLoop, Except.ok.injEq, Prod.mk.injEq] at h
    obtain ⟨h1, h2⟩ := h
    subst h1
    exact ⟨[], by simp, by simp, by simp⟩
  | cons e rest ih =>
    intro end_ filter n acc locks b h
    simp only [scanLoop] at h
    split at h
    · rename_i hend
      simp only [Except.ok.injEq, Prod.mk.injEq] at h
      obtain ⟨h1, h2⟩ := h
      subst h1
      exact ⟨[], by simp, by simp, by simp⟩
    · rename_i hend
      have hendlt : ∀ en, end_ = some en →
          listLt (Key.from_raw e.key).enc en.enc = true := by
        intro en hen
        subst hen
        simp only [Bool.not_eq_true] at hend
        simpa using hend
      cases hp : Lock.parse e.item.get_value with
      | error er =>
        rw [hp] at h
        exact Except.noConfusion h
      | ok lock =>
        rw [hp] at h
        simp only at h
        split at h
        · rename_i hf
          split at h
          · simp only [Except.ok.injEq, Prod.mk.injEq] at h
            obtain ⟨h1, h2⟩ := h
            subst h1
            refine ⟨[(Key.from_raw e.key, lock)], by simp, ?_, ?_⟩
            · simp only [List.map_cons, List.map_nil]
              exact (List.nil_sublist _).cons₂ _
            · intro kl hkl
              rcases List.mem_singleton.mp hkl with rfl
              exact ⟨hf, hendlt⟩
          · rcases ih end_ filter n _ locks b h with ⟨t2, ht2, hsub, hprops⟩
            refine ⟨(Key.from_raw e.key, lock) :: t2, by simpa using ht2, ?_, ?_⟩
            · simp only [List.map_cons]
              exact hsub.cons₂ _
            · intro kl hkl
              rcases List.mem_cons.mp hkl with rfl | hkl2
              · exact ⟨hf, hendlt⟩
              · exact hprops kl hkl2
        · rcases ih end_ filter n acc locks b h with ⟨t2, ht2, hsub, hprops⟩
          exact ⟨t2, ht2, hsub.cons _, hprops⟩

/-- C8: every pair a successful `scan_locks` returns satisfies the bounds
(`start ≤ k` when a start key is given, `k < end` when an end key is given)
and the predicate, and the returned sequence is in ascending key order. -/
theorem scan_locks_bounds (snap : SnapAccess) (start end_ : Option Key)
    (filter : Lock → Bool) (n : Nat) (locks : List (Key × Lock)) (b : Bool)
    (hsorted : snap.lockCf.Pairwise (fun a b2 => listLt a.key b2.key = true))
    (h : scan_locks snap start end_ filter n = .ok (locks, b)) :
    (∀ kl ∈ locks, filter kl.2 = true ∧
      (∀ s, start = some s → listLt kl.1.enc s.enc = false) ∧
      (∀ en, end_ = some en → listLt kl.1.enc en.enc = true)) ∧
    locks.Pairwise (fun x y => listLt x.1.enc y.1.enc = true) := by
  rw [scan_locks_eq_scanStart] at h
  cases hs : scanStart snap start with
  | error e =>
    rw [hs] at h
    exact Except.noConfusion h
  | ok es =>
    rw [hs] at h
    rcases scanLoop_props es end_ filter n [] locks b h with ⟨t, ht, hsub, hprops⟩
    rw [List.nil_append] at ht
    subst ht
    have hes : es.Sublist snap.lockCf ∧
        (∀ s raw_start, start = some s → s.to_raw = .ok raw_start →
          ∀ e ∈ es, listLt e.key raw_start = false) := by
      cases start with
      | none =>
        simp only [scanStart, Except.ok.injEq] at hs
        subst hs
        exact ⟨List.Sublist.refl _, by intro s raw hs2 _ _ _; exact Option.noConfusion hs2⟩
      | some s =>
        simp only [scanStart] at hs
        cases hst : s.to_raw with
        | error e =>
          rw [hst] at hs
          exact Except.noConfusion hs
        | ok raw_start =>
          rw [hst] at hs
          simp only [Except.ok.injEq] at hs
          subst hs
          refine ⟨cfSeek_sublist _ _, ?_⟩
          intro s2 raw2 hs2 hraw2 e he
          cases hs2
          rw [hst] at hraw2
          cases hraw2
          exact cfSeek_ge snap.lockCf raw_start hsorted e he
    constructor
    · intro kl hkl
      have hmem : kl.1 ∈ es.map (fun e => Key.from_raw e.key) :=
        hsub.subset (List.mem_map_of_mem Prod.fst hkl)
      rcases List.mem_map.mp hmem with ⟨e, hein, hke⟩
      refine ⟨(hprops kl hkl).1, ?_, (hprops kl hkl).2⟩
      intro s hstart
      cases hstart
      cases hst : s.to_raw with
      | error e2 =>
        simp only [scanStart, hst] at hs
        exact Except.noConfusion hs
      | ok raw_start =>
        have hgelock := hes.2 s raw_start rfl hst e hein
        have hcanon : s.enc = encodeRaw raw_start := decodeRaw_canonical s.enc raw_start hst
        rw [hcanon, ← hke]
        show listLt (Key.from_raw e.key).enc (encodeRaw raw_start) = false
        show listLt (encodeRaw e.key) (encodeRaw raw_start) = false
        rw [listLt_encodeRaw]
        exact hgelock
    · have hsort2 : es.Pairwise (fun a b2 => listLt a.key b2.key = true) :=
        hsorted.sublist hes.1
      have hmapsort : (es.map (fun e => Key.from_raw e.key)).Pairwise
          (fun x y => listLt x.enc y.enc = true) := by
        rw [List.pairwise_map]
        exact hsort2.imp (by
          intro a b2 hab
          show listLt (encodeRaw a.key) (encodeRaw b2.key) = true
          rw [listLt_encodeRaw]
          exact hab)
      have := hmapsort.sublist hsub
      rw [List.pairwise_map] at this
      exact this

theorem scan_locks_bounds_witness :
    scan_locks snapA (some (Key.from_raw [1])) (some (Key.from_raw [2]))
      (fun _ => true) 0 = .ok ([(Key.from_raw [1], ⟨0, [9]⟩)], false) ∧
    listLt (Key.from_raw [1]).enc (Key.from_raw [1]).enc = false ∧
    listLt (Key.from_raw [1]).enc (Key.from_raw [2]).enc = true := by
  have h := scan_locks_bounds snapA (some (Key.from_raw [1])) (some (Key.from_raw [2]))
    (fun _ => true) 0 [(Key.from_raw [1], ⟨0, [9]⟩)] false (by decide) rfl
  have h1 := (h.1 (Key.from_raw [1], ⟨0, [9]⟩) (List.mem_singleton.mpr rfl)).2.1
    (Key.from_raw [1]) rfl
  have h2 := (h.1 (Key.from_raw [1], ⟨0, [9]⟩) (List.mem_singleton.mpr rfl)).2.2
    (Key.from_raw [2]) rfl
  exact ⟨rfl, h1, h2⟩

theorem scanLoop_error : ∀ (P : List Entry) (bad : Entry) (rest : List Entry)
    (end_ : Option Key) (filter : Lock → Bool) (n : Nat) (acc : List (Key × Lock))
    (er : Err),
    (∀ p ∈ P, (∀ en, end_ = some en → listLt (Key.from_raw p.key).enc en.enc = true) ∧
      (Lock.parse p.item.get_value).isOk = true) →
    (n = 0 ∨ acc.length + matchCount P filter < n) →
    (∀ en, end_ = some en → listLt (Key.from_raw bad.key).enc en.enc = true) →
    Lock.parse bad.item.get_value = .error er →
    scanLoop (P ++ bad :: rest) end_ filter n acc = .error er := by
  intro P
  induction P with
  | nil =>
    intro bad rest end_ filter n acc er hP hlim hbadend hbadparse
    simp only [List.nil_append, scanLoop]
    rw [if_neg (by
      cases end_ with
      | none => simp
      | some en => simp [hbadend en rfl])]
    rw [hbadparse]
  | cons p P2 ih =>
    intro bad rest end_ filter n acc er hP hlim hbadend hbadparse
    rcases hP p (List.mem_cons_self p P2) with ⟨hpend, hpok⟩
    have hP2 : ∀ q ∈ P2, (∀ en, end_ = some en →
        listLt (Key.from_raw q.key).enc en.enc = true) ∧
        (Lock.parse q.item.get_value).isOk = true :=
      fun q hq => hP q (List.mem_cons_of_mem p hq)
    simp only [List.cons_append, scanLoop]
    rw [if_neg (by
      cases end_ with
      | none => simp
      | some en => simp [hpend en rfl])]
    cases hp : Lock.parse p.item.get_value with
    | error er2 =>
      rw [hp] at hpok
      simp [Except.isOk, Except.toBool] at hpok
    | ok lock =>
      simp only
      by_cases hf : filter lock = true
      · rw [if_pos hf]
        have hmc : matchCount (p :: P2) filter = matchCount P2 filter + 1 := by
          simp [matchCount, List.filter, hp, hf]
        rw [if_neg (by
          rintro ⟨hn, hlen⟩
          rcases hlim with h0 | hlt
          · omega
          · rw [hmc] at hlt
            rw [List.length_append] at hlen
            simp at hlen
            omega)]
        apply ih bad rest end_ filter n _ er hP2 _ hbadend hbadparse
        rcases hlim with h0 | hlt
        · exact Or.inl h0
        · right
          rw [hmc] at hlt
          rw [List.length_append]
          simp
          omega
      · rw [if_neg hf]
        have hmc : matchCount (p :: P2) filter = matchCount P2 filter := by
          simp [matchCount, List.filter, hp, hf]
        apply ih bad rest end_ filter n acc er hP2 _ hbadend hbadparse
        rcases hlim with h0 | hlt
        · exact Or.inl h0
        · right
          rw [hmc] at hlt
          exact hlt

/-- C10: `scan_locks` decodes every lock entry it visits before applying the
predicate: when the visited entries contain one whose bytes fail to parse —
reached before the limit is filled and before the end bound — the whole call
returns the decode error (so all locks collected so far are discarded),
regardless of whether the predicate would have excluded that entry. -/
theorem scan_locks_decode_error (snap : SnapAccess) (start end_ : Option Key)
    (filter : Lock → Bool) (n : Nat) (P : List Entry) (bad : Entry)
    (rest : List Entry) (er : Err)
    (hentries : scanStart snap start = .ok (P ++ bad :: rest))
    (hP : ∀ p ∈ P, (∀ en, end_ = some en →
      listLt (Key.from_raw p.key).enc en.enc = true) ∧
      (Lock.parse p.item.get_value).isOk = true)
    (hlim : n = 0 ∨ matchCount P filter < n)
    (hbadend : ∀ en, end_ = some en → listLt (Key.from_raw bad.key).enc en.enc = true)
    (hbadparse : Lock.parse bad.item.get_value = .error er) :
    scan_locks snap start end_ filter n = .error er := by
  rw [scan_locks_eq_scanStart, hentries]
  exact scanLoop_error P bad rest end_ filter n [] er hP
    (by simpa using hlim) hbadend hbadparse

theorem scan_locks_decode_error_witness :
    scan_locks snapC Option.none Option.none (fun _ => true) 5 = .error Err.lockParse := by
  have h := scan_locks_decode_error snapC Option.none Option.none (fun _ => true) 5
    [⟨[1], 0, ⟨[0, 9], none⟩⟩] ⟨[2], 0, ⟨[7], none⟩⟩ [] Err.lockParse
    rfl
    (by
      intro p hp
      rcases List.mem_singleton.mp hp with rfl
      exact ⟨fun en hen => Option.noConfusion hen, rfl⟩)
    (by
      right
      decide)
    (fun en hen => Option.noConfusion hen)
    rfl
  exact h

end CloudReader
